import Mathlib

/-!
# Verification of the expense-tracker balance aggregator and settlement optimizer

Shallow embedding of the debt-settlement core of the `expense_tracker`
repository:

* the balance recomputation `updateGroupBalances` of
  `demoExpensesService` (demo data service), which derives each group
  member's net balance from the group's expenses;
* the greedy settlement optimizer computed in the `settlements` memo of
  the `GroupDetail` page, which matches the largest creditor against the
  largest debtor until one partition empties;
* the incremental balance updates performed by `expensesService.create`
  and `paymentsService.create` through the `update_balance` SQL function
  (`UPDATE group_members SET balance = balance + p_amount WHERE ...`).

Monetary amounts are embedded as exact rationals `ℚ`; the JavaScript
number literals `0.01` and the `Math.round(x*100)/100` rounding are
translated as `1/100 : ℚ` and a floor-based half-up rounding.
-/

/-- A group member as used by the balance/settlement code: the member's
user id, display name and cached net balance.  (Fields `role` and
`joinedAt` of the source type are never read by this logic.) -/
structure GroupMember where
  userId : String
  displayName : String
  balance : ℚ
deriving DecidableEq

/-- One line of an expense's cost allocation (`Split` in `types`). -/
structure Split where
  userId : String
  amount : ℚ
  isPaid : Bool
deriving DecidableEq

/-- An expense with its splits.  (`id`, `groupId`, `description`,
`category`, `createdAt` are irrelevant to balance computation.) -/
structure Expense where
  amount : ℚ
  paidBy : String
  splits : List Split
deriving DecidableEq

/-- A recorded settlement payment between two members. -/
structure Payment where
  fromUserId : String
  toUserId : String
  amount : ℚ
deriving DecidableEq

/-- A working entry of the optimizer's creditor/debtor partitions:
a member together with the mutable `remaining` amount. -/
structure Party where
  userId : String
  displayName : String
  remaining : ℚ
deriving DecidableEq

/-- A settlement instruction `{from, to, amount, fromName, toName}` as
pushed onto `result` by the optimizer.  The source's `from`/`to` fields
are rendered `fromId`/`toId` (`from` is a Lean keyword). -/
structure Instr where
  fromId : String
  toId : String
  amount : ℚ
  fromName : String
  toName : String
deriving DecidableEq

/-! ## Balance aggregator (demo service `updateGroupBalances`) -/

/-- The member-id list of a group (`group.members.map(m => m.userId)`),
the key set of the `balances` record. -/
def memberIds (ms : List GroupMember) : List String :=
  ms.map (·.userId)

/-- Additive update of a balance map at one key:
`balances[y] += c`. -/
def bmUpdate (bal : String → ℚ) (y : String) (c : ℚ) : String → ℚ :=
  fun x => if x = y then bal x + c else bal x

/-- Processing of one expense by `updateGroupBalances`:
credit the payer by the total amount and debit each split's member by
the split amount.  The `if … ∈ ids` guards embed the source's
`balances[id] !== undefined` checks — the `balances` record holds
exactly the group's member ids, so an id is a defined key iff it is a
member id; ids failing the check are silently skipped. -/
def applyExpense (ids : List String) (bal : String → ℚ) (e : Expense) : String → ℚ :=
  let bal1 := if e.paidBy ∈ ids then bmUpdate bal e.paidBy e.amount else bal
  e.splits.foldl
    (fun b s => if s.userId ∈ ids then bmUpdate b s.userId (-s.amount) else b) bal1

/-- `demoExpensesService.updateGroupBalances`: initialize every member id
to 0, then fold the expense handling over the group's expense list.
Payments are not an input: the source reads only `getExpenses(groupId)`.
The resulting map sends every non-member id to 0 (no entry). -/
def updateGroupBalances (ms : List GroupMember) (es : List Expense) : String → ℚ :=
  es.foldl (applyExpense (memberIds ms)) (fun _ => 0)

/-- The final member-list update
`group.members.map(m => ({...m, balance: balances[m.userId] || 0}))`. -/
def recomputeMembers (ms : List GroupMember) (es : List Expense) : List GroupMember :=
  ms.map (fun m => { m with balance := updateGroupBalances ms es m.userId })

/-- The `update_balance` SQL function: add `a` to the balance of member
`u`; rows are keyed by member, so the `UPDATE ... WHERE` is a no-op when
`u` is not a group member. -/
def updateBalanceRpc (ids : List String) (bal : String → ℚ) (u : String) (a : ℚ) :
    String → ℚ :=
  if u ∈ ids then bmUpdate bal u a else bal

/-- The incremental balance update of `expensesService.create`
(supabase path): for each split whose member is not the payer, debit the
split's member by the split amount and credit the payer by the split
amount, via `update_balance`. -/
def applyIncrementalExpense (ids : List String) (bal : String → ℚ)
    (paidBy : String) (splits : List Split) : String → ℚ :=
  splits.foldl
    (fun b s =>
      if s.userId = paidBy then b
      else updateBalanceRpc ids (updateBalanceRpc ids b s.userId (-s.amount)) paidBy s.amount)
    bal

/-- The incremental balance update of `paymentsService.create`
(supabase path): `update_balance(fromUser, +amount)` then
`update_balance(toUser, -amount)`. -/
def applyPaymentRpc (ids : List String) (bal : String → ℚ) (p : Payment) : String → ℚ :=
  updateBalanceRpc ids (updateBalanceRpc ids bal p.fromUserId p.amount) p.toUserId (-p.amount)

/-- The demo-mode persistent state relevant to balances: the group's
member records, the stored expenses of the group and the stored
payments of the group. -/
structure DemoState where
  members : List GroupMember
  expenses : List Expense
  payments : List Payment
deriving DecidableEq

/-- `demoPaymentsService.addPayment`: pushes the new payment onto the
stored payment list and returns; no balance is touched and
`updateGroupBalances` is not invoked. -/
def demoAddPayment (st : DemoState) (p : Payment) : DemoState :=
  { st with payments := st.payments ++ [p] }

/-- The member list produced by running `updateGroupBalances` on a demo
state: it recomputes from `st.expenses` only (the source never calls
`getPayments`). -/
def demoRecompute (st : DemoState) : List GroupMember :=
  recomputeMembers st.members st.expenses

/-! ## Settlement optimizer (`settlements` memo of `GroupDetail`) -/

/-- The tolerance `0.01` appearing in the optimizer's comparisons. -/
def tol : ℚ := 1 / 100

/-- `Math.round(amount * 100) / 100`: round to two decimals, halves
away from zero toward `+∞` as JavaScript's `Math.round` does. -/
def jsRound2 (q : ℚ) : ℚ := (⌊q * 100 + 1 / 2⌋ : ℚ) / 100

/-- `array.sort((a, b) => b.remaining - a.remaining)`: stable descending
sort by `remaining`.  JavaScript's `Array.prototype.sort` is stable, so
elements with equal `remaining` keep their relative order; Mathlib's
insertion sort with the total relation `q.remaining ≤ p.remaining` has
exactly this behaviour. -/
def sortDesc (l : List Party) : List Party :=
  List.insertionSort (fun p q => q.remaining ≤ p.remaining) l

/-- `group.members.filter(m => m.balance > 0.01)` mapped to working
entries with `remaining: c.balance`. -/
def creditorsOf (ms : List GroupMember) : List Party :=
  (ms.filter (fun m => tol < m.balance)).map
    (fun m => ⟨m.userId, m.displayName, m.balance⟩)

/-- `group.members.filter(m => m.balance < -0.01)` mapped to working
entries with `remaining: Math.abs(d.balance)`. -/
def debtorsOf (ms : List GroupMember) : List Party :=
  (ms.filter (fun m => m.balance < -tol)).map
    (fun m => ⟨m.userId, m.displayName, |m.balance|⟩)

/-- The optimizer's `while` loop, with the iteration count made explicit
as fuel (the loop removes at least one party per iteration, so
`creditors.length + debtors.length` iterations always suffice; see
`settleLoop_fuel_irrelevant`).  Returns the emitted instruction list
together with the final creditor and debtor partitions.  Each
iteration: re-sort both partitions descending by `remaining`, take the
heads, settle `min` of the two remaining amounts, emit the instruction
with the amount rounded to two decimals, decrement both remaining
amounts, and drop a head whose remaining fell strictly below `0.01`. -/
def settleLoop : ℕ → List Party → List Party → List Instr × List Party × List Party
  | 0, cs, ds => ([], cs, ds)
  | fuel + 1, cs, ds =>
    match sortDesc cs, sortDesc ds with
    | c :: ctl, d :: dtl =>
      let a := min c.remaining d.remaining
      let instr : Instr := ⟨d.userId, c.userId, jsRound2 a, d.displayName, c.displayName⟩
      let c' : Party := { c with remaining := c.remaining - a }
      let d' : Party := { d with remaining := d.remaining - a }
      let ncs := if c'.remaining < tol then ctl else c' :: ctl
      let nds := if d'.remaining < tol then dtl else d' :: dtl
      let rest := settleLoop fuel ncs nds
      (instr :: rest.1, rest.2)
    | _, _ => ([], cs, ds)

/-- The `settlements` memo: build the creditor and debtor partitions
from the member balances and run the greedy loop (fuel equal to the
total party count is always enough). -/
def settlements (ms : List GroupMember) : List Instr :=
  (settleLoop ((creditorsOf ms).length + (debtorsOf ms).length)
    (creditorsOf ms) (debtorsOf ms)).1

/-! ## Property vocabulary -/

/-- Applying one settlement instruction to a balance mapping: the payer
(`from`) pays `amount`, so their debt decreases (balance `+= amount`),
and the payee (`to`) is owed `amount` less (balance `-= amount`) —
the payment semantics of spec §4.1. -/
def applyInstr (bal : String → ℚ) (i : Instr) : String → ℚ :=
  fun x => bal x + (if x = i.fromId then i.amount else 0)
    - (if x = i.toId then i.amount else 0)

/-- Applying a whole instruction list in order. -/
def applyInstrs (is : List Instr) (bal : String → ℚ) : String → ℚ :=
  is.foldl applyInstr bal

/-- The balance mapping carried by a member list: the balance of the
(first) member with the given user id, 0 for ids without a member. -/
def balMap (ms : List GroupMember) (x : String) : ℚ :=
  ((ms.find? (fun m => m.userId = x)).map (·.balance)).getD 0

/-- Total signed remaining amount a partition attributes to an id. -/
def partSum (l : List Party) (x : String) : ℚ :=
  (l.map (fun p => if p.userId = x then p.remaining else 0)).sum

/-- Total remaining amount of a partition. -/
def totalR (l : List Party) : ℚ :=
  (l.map (·.remaining)).sum

/-- The net balance snapshot encoded by the two partitions: a creditor's
remaining counts positively, a debtor's negatively. -/
def partNet (cs ds : List Party) (x : String) : ℚ :=
  partSum cs x - partSum ds x

/-- `q` is a whole number of cents (an integer multiple of `0.01`). -/
def isCent (q : ℚ) : Prop := (q * 100).den = 1

instance : DecidablePred isCent := fun q => by unfold isCent; infer_instance

/-! ## Basic lemmas about cents, rounding, partitions and sorting -/

lemma tol_pos : 0 < tol := by norm_num [tol]

lemma isCent_iff {q : ℚ} : isCent q ↔ ∃ k : ℤ, q = (k : ℚ) / 100 := by
  constructor
  · intro h
    refine ⟨(q * 100).num, ?_⟩
    have h2 : ((q * 100).num : ℚ) = q * 100 := (Rat.den_eq_one_iff _).1 h
    rw [h2]
    ring
  · rintro ⟨k, rfl⟩
    have h100 : ((k : ℚ) / 100) * 100 = (k : ℚ) := by
      field_simp
    unfold isCent
    rw [h100, Rat.den_intCast]

lemma isCent_sub {a b : ℚ} (ha : isCent a) (hb : isCent b) : isCent (a - b) := by
  rw [isCent_iff] at *
  obtain ⟨k, rfl⟩ := ha
  obtain ⟨l, rfl⟩ := hb
  exact ⟨k - l, by push_cast; ring⟩

lemma isCent_neg {a : ℚ} (ha : isCent a) : isCent (-a) := by
  rw [isCent_iff] at *
  obtain ⟨k, rfl⟩ := ha
  exact ⟨-k, by push_cast; ring⟩

lemma isCent_abs {a : ℚ} (ha : isCent a) : isCent |a| := by
  rcases abs_cases a with ⟨h, _⟩ | ⟨h, _⟩
  · rwa [h]
  · rw [h]; exact isCent_neg ha

lemma isCent_min {a b : ℚ} (ha : isCent a) (hb : isCent b) : isCent (min a b) := by
  rcases min_cases a b with ⟨h, _⟩ | ⟨h, _⟩ <;> rw [h] <;> assumption

/-- A nonnegative whole-cent amount strictly below the tolerance `0.01`
is exactly zero. -/
lemma isCent_eq_zero_of_lt_tol {q : ℚ} (hc : isCent q) (h0 : 0 ≤ q) (ht : q < tol) :
    q = 0 := by
  rw [isCent_iff] at hc
  obtain ⟨k, rfl⟩ := hc
  have hk0 : (0 : ℚ) ≤ (k : ℚ) := by
    by_contra hneg
    push_neg at hneg
    have : (k : ℚ) / 100 < 0 := div_neg_of_neg_of_pos hneg (by norm_num)
    linarith
  have hk1 : (k : ℚ) < 1 := by
    rw [tol] at ht
    by_contra hge
    push_neg at hge
    have : (1 : ℚ) / 100 ≤ (k : ℚ) / 100 := by linarith
    linarith
  have hz : k = 0 := by
    have h1 : (0 : ℤ) ≤ k := by exact_mod_cast hk0
    have h2 : k < 1 := by exact_mod_cast hk1
    omega
  rw [hz]
  norm_num

/-- A whole-cent amount within the tolerance band that is not `±0.01`
is exactly zero. -/
lemma isCent_in_band_eq_zero {q : ℚ} (hc : isCent q) (hlo : -tol ≤ q) (hhi : q ≤ tol)
    (h1 : q ≠ tol) (h2 : q ≠ -tol) : q = 0 := by
  rw [isCent_iff] at hc
  obtain ⟨k, rfl⟩ := hc
  have hklo : (-1 : ℚ) ≤ (k : ℚ) := by
    rw [tol] at hlo
    nlinarith
  have hkhi : (k : ℚ) ≤ 1 := by
    rw [tol] at hhi
    nlinarith
  have hk1 : (k : ℚ) ≠ 1 := by
    intro h
    apply h1
    rw [h, tol]
  have hk2 : (k : ℚ) ≠ -1 := by
    intro h
    apply h2
    rw [h, tol]
    norm_num
  have hz : k = 0 := by
    have l1 : (-1 : ℤ) ≤ k := by exact_mod_cast hklo
    have l2 : k ≤ 1 := by exact_mod_cast hkhi
    have l3 : k ≠ 1 := by exact_mod_cast hk1
    have l4 : k ≠ -1 := by exact_mod_cast hk2
    omega
  rw [hz]
  norm_num

/-- `Math.round(x*100)/100` is the identity on whole-cent amounts. -/
lemma jsRound2_cent {q : ℚ} (hc : isCent q) : jsRound2 q = q := by
  rw [isCent_iff] at hc
  obtain ⟨k, rfl⟩ := hc
  have h100 : ((k : ℚ) / 100) * 100 = (k : ℚ) := by field_simp
  rw [jsRound2, h100, Int.floor_int_add]
  norm_num

lemma partSum_nil (x : String) : partSum [] x = 0 := rfl

lemma partSum_cons (p : Party) (l : List Party) (x : String) :
    partSum (p :: l) x = (if p.userId = x then p.remaining else 0) + partSum l x := by
  simp [partSum]

lemma totalR_nil : totalR [] = 0 := rfl

lemma totalR_cons (p : Party) (l : List Party) :
    totalR (p :: l) = p.remaining + totalR l := by
  simp [totalR]

lemma partSum_of_perm {l l' : List Party} (h : l.Perm l') (x : String) :
    partSum l x = partSum l' x :=
  (h.map _).sum_eq

lemma totalR_of_perm {l l' : List Party} (h : l.Perm l') : totalR l = totalR l' :=
  (h.map _).sum_eq

lemma partSum_nonneg {l : List Party} (h : ∀ p ∈ l, 0 ≤ p.remaining) (x : String) :
    0 ≤ partSum l x := by
  induction l with
  | nil => simp [partSum_nil]
  | cons p t ih =>
    rw [partSum_cons]
    have hp := h p (by simp)
    have ht := ih (fun q hq => h q (by simp [hq]))
    split <;> linarith

lemma partSum_le_totalR {l : List Party} (h : ∀ p ∈ l, 0 ≤ p.remaining) (x : String) :
    partSum l x ≤ totalR l := by
  induction l with
  | nil => simp [partSum_nil, totalR_nil]
  | cons p t ih =>
    rw [partSum_cons, totalR_cons]
    have hp := h p (by simp)
    have ht := ih (fun q hq => h q (by simp [hq]))
    split <;> linarith

lemma partSum_eq_zero_of_not_mem {l : List Party} {x : String}
    (h : ∀ p ∈ l, p.userId ≠ x) : partSum l x = 0 := by
  induction l with
  | nil => rfl
  | cons p t ih =>
    rw [partSum_cons, if_neg (h p (by simp)), ih (fun q hq => h q (by simp [hq]))]
    norm_num

lemma partNet_nil_nil : partNet [] [] = fun _ => (0 : ℚ) := by
  funext x
  simp [partNet, partSum_nil]

lemma applyInstrs_nil (bal : String → ℚ) : applyInstrs [] bal = bal := rfl

lemma applyInstrs_cons (i : Instr) (is : List Instr) (bal : String → ℚ) :
    applyInstrs (i :: is) bal = applyInstrs is (applyInstr bal i) := rfl

lemma sortDesc_perm (l : List Party) : (sortDesc l).Perm l :=
  List.perm_insertionSort _ l

lemma length_sortDesc (l : List Party) : (sortDesc l).length = l.length :=
  List.length_insertionSort _ l

lemma sortDesc_nil : sortDesc [] = [] := rfl

lemma sortDesc_eq_nil_iff {l : List Party} : sortDesc l = [] ↔ l = [] := by
  constructor
  · intro h
    have := length_sortDesc l
    rw [h] at this
    exact List.length_eq_zero.1 this.symm
  · rintro rfl
    rfl

lemma mem_of_mem_sortDesc {l : List Party} {p : Party} (h : p ∈ sortDesc l) : p ∈ l :=
  (sortDesc_perm l).mem_iff.1 h

/-! ## Unfolding equations and step facts for the optimizer loop -/

/-- The partition left for a party after one settling step: the party is
dropped when its remaining amount fell strictly below the tolerance,
otherwise it stays (at the head) with the decremented amount. -/
def stepList (c : Party) (a : ℚ) (ctl : List Party) : List Party :=
  if c.remaining - a < tol then ctl else { c with remaining := c.remaining - a } :: ctl

lemma settleLoop_succ_left_nil (fuel : ℕ) (ds : List Party) :
    settleLoop (fuel + 1) [] ds = ([], [], ds) := by
  simp [settleLoop, sortDesc_nil]

lemma settleLoop_succ_right_nil (fuel : ℕ) (cs : List Party) :
    settleLoop (fuel + 1) cs [] = ([], cs, []) := by
  rcases h1 : sortDesc cs with _ | ⟨c, ctl⟩ <;> simp [settleLoop, h1, sortDesc_nil]

lemma settleLoop_succ_cons {cs ds : List Party} {c d : Party} {ctl dtl : List Party}
    (fuel : ℕ) (hc : sortDesc cs = c :: ctl) (hd : sortDesc ds = d :: dtl) :
    settleLoop (fuel + 1) cs ds =
      ((⟨d.userId, c.userId, jsRound2 (min c.remaining d.remaining),
          d.displayName, c.displayName⟩ : Instr) ::
        (settleLoop fuel (stepList c (min c.remaining d.remaining) ctl)
          (stepList d (min c.remaining d.remaining) dtl)).1,
        (settleLoop fuel (stepList c (min c.remaining d.remaining) ctl)
          (stepList d (min c.remaining d.remaining) dtl)).2) := by
  simp [settleLoop, hc, hd, stepList]

lemma partSum_stepList {c : Party} {a : ℚ} (ctl : List Party)
    (hc : isCent c.remaining) (ha : isCent a) (hle : a ≤ c.remaining) (x : String) :
    partSum (stepList c a ctl) x
      = (if c.userId = x then c.remaining - a else 0) + partSum ctl x := by
  unfold stepList
  split
  · rename_i hlt
    have h0 : c.remaining - a = 0 :=
      isCent_eq_zero_of_lt_tol (isCent_sub hc ha) (by linarith) hlt
    rw [h0]
    simp
  · rw [partSum_cons]

lemma totalR_stepList {c : Party} {a : ℚ} (ctl : List Party)
    (hc : isCent c.remaining) (ha : isCent a) (hle : a ≤ c.remaining) :
    totalR (stepList c a ctl) = (c.remaining - a) + totalR ctl := by
  unfold stepList
  split
  · rename_i hlt
    have h0 : c.remaining - a = 0 :=
      isCent_eq_zero_of_lt_tol (isCent_sub hc ha) (by linarith) hlt
    rw [h0]
    ring_nf
  · rw [totalR_cons]

lemma inv_stepList {c : Party} {a : ℚ} {ctl : List Party}
    (hc : isCent c.remaining)
    (htl : ∀ p ∈ ctl, isCent p.remaining ∧ tol ≤ p.remaining) (ha : isCent a) :
    ∀ p ∈ stepList c a ctl, isCent p.remaining ∧ tol ≤ p.remaining := by
  unfold stepList
  split
  · exact htl
  · rename_i hge
    push_neg at hge
    intro p hp
    rcases List.mem_cons.1 hp with rfl | hmem
    · exact ⟨isCent_sub hc ha, hge⟩
    · exact htl p hmem

lemma length_stepList (c : Party) (a : ℚ) (ctl : List Party) :
    (stepList c a ctl).length ≤ ctl.length + 1 := by
  unfold stepList
  split <;> simp

lemma stepList_self_min {c d : Party} (ctl : List Party)
    (h : min c.remaining d.remaining = c.remaining) :
    stepList c (min c.remaining d.remaining) ctl = ctl := by
  unfold stepList
  rw [if_pos]
  rw [h]
  simp [tol_pos]

/-- Master invariant of the optimizer loop, for whole-cent inputs with
every working amount at least the tolerance: with enough fuel the loop
(1) empties at least one partition, (2)–(3) preserves the working
invariant, (4) settles equal amounts on both sides, and (5) the emitted
instructions transform the net snapshot of the starting partitions into
the net snapshot of the final partitions. -/
lemma settleLoop_spec :
    ∀ (fuel : ℕ) (cs ds : List Party),
      cs.length + ds.length ≤ fuel →
      (∀ p ∈ cs, isCent p.remaining ∧ tol ≤ p.remaining) →
      (∀ p ∈ ds, isCent p.remaining ∧ tol ≤ p.remaining) →
      ((settleLoop fuel cs ds).2.1 = [] ∨ (settleLoop fuel cs ds).2.2 = []) ∧
      (∀ p ∈ (settleLoop fuel cs ds).2.1, isCent p.remaining ∧ tol ≤ p.remaining) ∧
      (∀ p ∈ (settleLoop fuel cs ds).2.2, isCent p.remaining ∧ tol ≤ p.remaining) ∧
      totalR (settleLoop fuel cs ds).2.1 - totalR (settleLoop fuel cs ds).2.2
        = totalR cs - totalR ds ∧
      applyInstrs (settleLoop fuel cs ds).1 (partNet cs ds)
        = partNet (settleLoop fuel cs ds).2.1 (settleLoop fuel cs ds).2.2 := by
  intro fuel
  induction fuel with
  | zero =>
    intro cs ds hlen hc hd
    have hcs : cs = [] := List.length_eq_zero.1 (by omega)
    have hds : ds = [] := List.length_eq_zero.1 (by omega)
    subst hcs
    subst hds
    simp [settleLoop, applyInstrs_nil]
  | succ fuel ih =>
    intro cs ds hlen hc hd
    rcases h1 : sortDesc cs with _ | ⟨c, ctl⟩
    · have hcs : cs = [] := sortDesc_eq_nil_iff.1 h1
      subst hcs
      rw [settleLoop_succ_left_nil]
      refine ⟨Or.inl rfl, by simp, hd, by ring, rfl⟩
    · rcases h2 : sortDesc ds with _ | ⟨d, dtl⟩
      · have hds : ds = [] := sortDesc_eq_nil_iff.1 h2
        subst hds
        rw [settleLoop_succ_right_nil]
        refine ⟨Or.inr rfl, hc, by simp, by ring, rfl⟩
      · -- main settling step
        have hpermc : (c :: ctl).Perm cs := h1 ▸ sortDesc_perm cs
        have hpermd : (d :: dtl).Perm ds := h2 ▸ sortDesc_perm ds
        have hcmem : ∀ p ∈ c :: ctl, isCent p.remaining ∧ tol ≤ p.remaining :=
          fun p hp => hc p (hpermc.subset hp)
        have hdmem : ∀ p ∈ d :: dtl, isCent p.remaining ∧ tol ≤ p.remaining :=
          fun p hp => hd p (hpermd.subset hp)
        have hcc := hcmem c (by simp)
        have hdd := hdmem d (by simp)
        have hctl : ∀ p ∈ ctl, isCent p.remaining ∧ tol ≤ p.remaining :=
          fun p hp => hcmem p (by simp [hp])
        have hdtl : ∀ p ∈ dtl, isCent p.remaining ∧ tol ≤ p.remaining :=
          fun p hp => hdmem p (by simp [hp])
        have ha_cent : isCent (min c.remaining d.remaining) := isCent_min hcc.1 hdd.1
        have ha_le_c : min c.remaining d.remaining ≤ c.remaining := min_le_left _ _
        have ha_le_d : min c.remaining d.remaining ≤ d.remaining := min_le_right _ _
        have hlc : ctl.length + 1 = cs.length := by
          have := length_sortDesc cs
          rw [h1] at this
          simpa using this
        have hld : dtl.length + 1 = ds.length := by
          have := length_sortDesc ds
          rw [h2] at this
          simpa using this
        have hstep_len : (stepList c (min c.remaining d.remaining) ctl).length
            + (stepList d (min c.remaining d.remaining) dtl).length ≤ fuel := by
          rcases min_cases c.remaining d.remaining with ⟨hmin, _⟩ | ⟨hmin, _⟩
          · have he : stepList c (min c.remaining d.remaining) ctl = ctl :=
              stepList_self_min ctl hmin
            have := length_stepList d (min c.remaining d.remaining) dtl
            rw [he]
            omega
          · have he : stepList d (min c.remaining d.remaining) dtl = dtl := by
              unfold stepList
              rw [if_pos]
              rw [hmin]
              simp [tol_pos]
            have := length_stepList c (min c.remaining d.remaining) ctl
            rw [he]
            omega
        have hstep_invc := inv_stepList hcc.1 hctl ha_cent
        have hstep_invd := inv_stepList hdd.1 hdtl ha_cent
        obtain ⟨ihdone, ihinvc, ihinvd, ihtot, ihapp⟩ :=
          ih (stepList c (min c.remaining d.remaining) ctl)
            (stepList d (min c.remaining d.remaining) dtl)
            hstep_len hstep_invc hstep_invd
        rw [settleLoop_succ_cons fuel h1 h2]
        refine ⟨ihdone, ihinvc, ihinvd, ?_, ?_⟩
        · -- settled totals
          rw [ihtot, totalR_stepList ctl hcc.1 ha_cent ha_le_c,
            totalR_stepList dtl hdd.1 ha_cent ha_le_d,
            ← totalR_of_perm hpermc, ← totalR_of_perm hpermd,
            totalR_cons, totalR_cons]
          ring
        · -- net-snapshot bookkeeping
          rw [applyInstrs_cons]
          have hnet : applyInstr (partNet cs ds)
              ⟨d.userId, c.userId, jsRound2 (min c.remaining d.remaining),
                d.displayName, c.displayName⟩
              = partNet (stepList c (min c.remaining d.remaining) ctl)
                  (stepList d (min c.remaining d.remaining) dtl) := by
            funext x
            have hx1 : partSum cs x = partSum (c :: ctl) x :=
              (partSum_of_perm hpermc x).symm
            have hx2 : partSum ds x = partSum (d :: dtl) x :=
              (partSum_of_perm hpermd x).symm
            simp only [applyInstr, partNet, hx1, hx2,
              partSum_stepList ctl hcc.1 ha_cent ha_le_c,
              partSum_stepList dtl hdd.1 ha_cent ha_le_d,
              partSum_cons, jsRound2_cent ha_cent]
            have hfd : (x = d.userId) ↔ (d.userId = x) := eq_comm
            have hfc : (x = c.userId) ↔ (c.userId = x) := eq_comm
            by_cases hcx : c.userId = x <;> by_cases hdx : d.userId = x <;>
              simp [hfd, hfc, hcx, hdx] <;> ring
          rw [hnet, ihapp]

/-- Each iteration of the loop settles the smaller of the two head
amounts, so the corresponding party drops below the tolerance and is
removed: together the two partitions lose at least one entry. -/
lemma stepList_lengths (c d : Party) (ctl dtl : List Party) :
    (stepList c (min c.remaining d.remaining) ctl).length
      + (stepList d (min c.remaining d.remaining) dtl).length
      ≤ ctl.length + dtl.length + 1 := by
  rcases min_cases c.remaining d.remaining with ⟨hmin, _⟩ | ⟨hmin, _⟩
  · rw [stepList_self_min ctl hmin]
    have := length_stepList d (min c.remaining d.remaining) dtl
    omega
  · have he : stepList d (min c.remaining d.remaining) dtl = dtl := by
      unfold stepList
      rw [if_pos]
      rw [hmin]
      simp [tol_pos]
    rw [he]
    have := length_stepList c (min c.remaining d.remaining) ctl
    omega

/-- The loop emits at most one instruction fewer than the total number
of parties in the two partitions, for any fuel and any input. -/
lemma settleLoop_length :
    ∀ (fuel : ℕ) (cs ds : List Party),
      (settleLoop fuel cs ds).1.length ≤ cs.length + ds.length - 1 := by
  intro fuel
  induction fuel with
  | zero => intro cs ds; simp [settleLoop]
  | succ fuel ih =>
    intro cs ds
    rcases h1 : sortDesc cs with _ | ⟨c, ctl⟩
    · have hcs : cs = [] := sortDesc_eq_nil_iff.1 h1
      subst hcs
      rw [settleLoop_succ_left_nil]
      simp
    · rcases h2 : sortDesc ds with _ | ⟨d, dtl⟩
      · have hds : ds = [] := sortDesc_eq_nil_iff.1 h2
        subst hds
        rw [settleLoop_succ_right_nil]
        simp
      · have hlc : ctl.length + 1 = cs.length := by
          have := length_sortDesc cs
          rw [h1] at this
          simpa using this
        have hld : dtl.length + 1 = ds.length := by
          have := length_sortDesc ds
          rw [h2] at this
          simpa using this
        rw [settleLoop_succ_cons fuel h1 h2]
        have hrec := ih (stepList c (min c.remaining d.remaining) ctl)
          (stepList d (min c.remaining d.remaining) dtl)
        have hstep := stepList_lengths c d ctl dtl
        simp only [List.length_cons]
        omega

/-- Adding fuel beyond the total party count does not change the loop's
result: with that much fuel the loop has already reached its natural
exit, so the `while` loop of the source terminates with this result. -/
lemma settleLoop_fuel_succ :
    ∀ (fuel : ℕ) (cs ds : List Party), cs.length + ds.length ≤ fuel →
      settleLoop (fuel + 1) cs ds = settleLoop fuel cs ds := by
  intro fuel
  induction fuel with
  | zero =>
    intro cs ds hlen
    have hcs : cs = [] := List.length_eq_zero.1 (by omega)
    have hds : ds = [] := List.length_eq_zero.1 (by omega)
    subst hcs
    subst hds
    rw [settleLoop_succ_left_nil]
    simp [settleLoop]
  | succ fuel ih =>
    intro cs ds hlen
    rcases h1 : sortDesc cs with _ | ⟨c, ctl⟩
    · have hcs : cs = [] := sortDesc_eq_nil_iff.1 h1
      subst hcs
      rw [settleLoop_succ_left_nil, settleLoop_succ_left_nil]
    · rcases h2 : sortDesc ds with _ | ⟨d, dtl⟩
      · have hds : ds = [] := sortDesc_eq_nil_iff.1 h2
        subst hds
        rw [settleLoop_succ_right_nil, settleLoop_succ_right_nil]
      · have hlc : ctl.length + 1 = cs.length := by
          have := length_sortDesc cs
          rw [h1] at this
          simpa using this
        have hld : dtl.length + 1 = ds.length := by
          have := length_sortDesc ds
          rw [h2] at this
          simpa using this
        rw [settleLoop_succ_cons (fuel + 1) h1 h2, settleLoop_succ_cons fuel h1 h2]
        have hstep := stepList_lengths c d ctl dtl
        rw [ih _ _ (by omega)]

/-- Any fuel at least the total party count gives the same result as
fuel exactly the total party count. -/
lemma settleLoop_fuel_ge :
    ∀ (fuel : ℕ) (cs ds : List Party), cs.length + ds.length ≤ fuel →
      settleLoop fuel cs ds = settleLoop (cs.length + ds.length) cs ds := by
  intro fuel cs ds hlen
  induction fuel with
  | zero =>
    have h0 : cs.length + ds.length = 0 := by omega
    rw [h0]
  | succ fuel ih =>
    rcases Nat.lt_or_ge (cs.length + ds.length) (fuel + 1) with h | h
    · rw [settleLoop_fuel_succ fuel cs ds (by omega), ih (by omega)]
    · have : cs.length + ds.length = fuel + 1 := by omega
      rw [this]

/-! ## Initial-state lemmas for the optimizer -/

lemma balMap_nil (x : String) : balMap [] x = 0 := rfl

lemma balMap_cons (m : GroupMember) (tl : List GroupMember) (x : String) :
    balMap (m :: tl) x = if m.userId = x then m.balance else balMap tl x := by
  by_cases h : m.userId = x <;> simp [balMap, List.find?_cons, h]

lemma creditorsOf_cons (m : GroupMember) (tl : List GroupMember) :
    creditorsOf (m :: tl) =
      if tol < m.balance then
        (⟨m.userId, m.displayName, m.balance⟩ : Party) :: creditorsOf tl
      else creditorsOf tl := by
  by_cases h : tol < m.balance <;> simp [creditorsOf, List.filter_cons, h]

lemma debtorsOf_cons (m : GroupMember) (tl : List GroupMember) :
    debtorsOf (m :: tl) =
      if m.balance < -tol then
        (⟨m.userId, m.displayName, |m.balance|⟩ : Party) :: debtorsOf tl
      else debtorsOf tl := by
  by_cases h : m.balance < -tol <;> simp [debtorsOf, List.filter_cons, h]

lemma mem_creditorsOf_ids {ms : List GroupMember} {p : Party}
    (hp : p ∈ creditorsOf ms) : p.userId ∈ memberIds ms := by
  simp only [creditorsOf, List.mem_map, List.mem_filter] at hp
  obtain ⟨m, ⟨hm, _⟩, rfl⟩ := hp
  exact List.mem_map.2 ⟨m, hm, rfl⟩

lemma mem_debtorsOf_ids {ms : List GroupMember} {p : Party}
    (hp : p ∈ debtorsOf ms) : p.userId ∈ memberIds ms := by
  simp only [debtorsOf, List.mem_map, List.mem_filter] at hp
  obtain ⟨m, ⟨hm, _⟩, rfl⟩ := hp
  exact List.mem_map.2 ⟨m, hm, rfl⟩

lemma inv_creditorsOf {ms : List GroupMember} (hcent : ∀ m ∈ ms, isCent m.balance) :
    ∀ p ∈ creditorsOf ms, isCent p.remaining ∧ tol ≤ p.remaining := by
  intro p hp
  simp only [creditorsOf, List.mem_map, List.mem_filter] at hp
  obtain ⟨m, ⟨hm, hb⟩, rfl⟩ := hp
  simp only [decide_eq_true_eq] at hb
  exact ⟨hcent m hm, le_of_lt hb⟩

lemma inv_debtorsOf {ms : List GroupMember} (hcent : ∀ m ∈ ms, isCent m.balance) :
    ∀ p ∈ debtorsOf ms, isCent p.remaining ∧ tol ≤ p.remaining := by
  intro p hp
  simp only [debtorsOf, List.mem_map, List.mem_filter] at hp
  obtain ⟨m, ⟨hm, hb⟩, rfl⟩ := hp
  simp only [decide_eq_true_eq] at hb
  refine ⟨isCent_abs (hcent m hm), ?_⟩
  show tol ≤ |m.balance|
  rw [abs_of_neg (by have := tol_pos; linarith)]
  linarith

/-- With distinct member ids and every in-band balance exactly zero, the
net snapshot of the initial partitions is the input balance mapping. -/
lemma partNet_init {ms : List GroupMember} (hnd : (memberIds ms).Nodup)
    (hz : ∀ m ∈ ms, -tol ≤ m.balance → m.balance ≤ tol → m.balance = 0) :
    ∀ x, partNet (creditorsOf ms) (debtorsOf ms) x = balMap ms x := by
  induction ms with
  | nil => intro x; simp [partNet, creditorsOf, debtorsOf, partSum_nil, balMap_nil]
  | cons m tl ih =>
    have hnd' : (memberIds tl).Nodup := (List.nodup_cons.1 hnd).2
    have hnotmem : m.userId ∉ memberIds tl := (List.nodup_cons.1 hnd).1
    have hz' : ∀ m' ∈ tl, -tol ≤ m'.balance → m'.balance ≤ tol → m'.balance = 0 :=
      fun m' hm' => hz m' (by simp [hm'])
    intro x
    have ihx := ih hnd' hz' x
    rw [partNet] at ihx
    rw [balMap_cons, partNet, creditorsOf_cons, debtorsOf_cons]
    by_cases hx : m.userId = x
    · have hc0 : partSum (creditorsOf tl) x = 0 := by
        apply partSum_eq_zero_of_not_mem
        intro p hp hpx
        exact hnotmem (hx ▸ hpx ▸ mem_creditorsOf_ids hp)
      have hd0 : partSum (debtorsOf tl) x = 0 := by
        apply partSum_eq_zero_of_not_mem
        intro p hp hpx
        exact hnotmem (hx ▸ hpx ▸ mem_debtorsOf_ids hp)
      rw [if_pos hx]
      by_cases hcred : tol < m.balance
      · have hdeb : ¬ m.balance < -tol := by have := tol_pos; intro h; linarith
        rw [if_pos hcred, if_neg hdeb, partSum_cons, if_pos hx, hc0, hd0]
        ring
      · by_cases hdeb : m.balance < -tol
        · rw [if_neg hcred, if_pos hdeb, partSum_cons, if_pos hx, hc0, hd0,
            abs_of_neg (by have := tol_pos; linarith)]
          ring
        · have h0 : m.balance = 0 := by
            push_neg at hcred hdeb
            exact hz m (by simp) (by linarith) hcred
          rw [if_neg hcred, if_neg hdeb, hc0, hd0, h0]
          ring
    · rw [if_neg hx]
      by_cases hcred : tol < m.balance
      · have hdeb : ¬ m.balance < -tol := by have := tol_pos; intro h; linarith
        rw [if_pos hcred, if_neg hdeb, partSum_cons, if_neg hx]
        linarith
      · by_cases hdeb : m.balance < -tol
        · rw [if_neg hcred, if_pos hdeb, partSum_cons, if_neg hx]
          linarith
        · rw [if_neg hcred, if_neg hdeb]
          linarith

/-- With every in-band balance exactly zero, the initial partition
totals differ by exactly the sum of all balances. -/
lemma totals_init {ms : List GroupMember}
    (hz : ∀ m ∈ ms, -tol ≤ m.balance → m.balance ≤ tol → m.balance = 0) :
    totalR (creditorsOf ms) - totalR (debtorsOf ms) = (ms.map (·.balance)).sum := by
  induction ms with
  | nil => simp [creditorsOf, debtorsOf, totalR_nil]
  | cons m tl ih =>
    have hz' : ∀ m' ∈ tl, -tol ≤ m'.balance → m'.balance ≤ tol → m'.balance = 0 :=
      fun m' hm' => hz m' (by simp [hm'])
    have ihs := ih hz'
    rw [creditorsOf_cons, debtorsOf_cons, List.map_cons, List.sum_cons]
    by_cases hcred : tol < m.balance
    · have hdeb : ¬ m.balance < -tol := by have := tol_pos; intro h; linarith
      rw [if_pos hcred, if_neg hdeb, totalR_cons]
      linarith
    · by_cases hdeb : m.balance < -tol
      · rw [if_neg hcred, if_pos hdeb, totalR_cons,
          abs_of_neg (by have := tol_pos; linarith)]
        dsimp only
        linarith
      · have h0 : m.balance = 0 := by
          push_neg at hcred hdeb
          exact hz m (by simp) (by linarith) hcred
        rw [if_neg hcred, if_neg hdeb, h0]
        linarith

/-- The two partitions together hold exactly the members outside the
tolerance band. -/
lemma partition_count (ms : List GroupMember) :
    (creditorsOf ms).length + (debtorsOf ms).length
      = (ms.filter (fun m => tol < m.balance ∨ m.balance < -tol)).length := by
  induction ms with
  | nil => simp [creditorsOf, debtorsOf]
  | cons m tl ih =>
    rw [creditorsOf_cons, debtorsOf_cons, List.filter_cons]
    by_cases hcred : tol < m.balance
    · have hdeb : ¬ m.balance < -tol := by have := tol_pos; intro h; linarith
      rw [if_pos hcred, if_neg hdeb, if_pos (by simp [hcred])]
      simp only [List.length_cons]
      omega
    · by_cases hdeb : m.balance < -tol
      · rw [if_neg hcred, if_pos hdeb, if_pos (by simp [hdeb])]
        simp only [List.length_cons]
        omega
      · rw [if_neg hcred, if_neg hdeb, if_neg (by simp [hcred, hdeb])]
        omega

/-- C1 (amended).  For an input balance mapping with pairwise-distinct
member ids whose balances are all whole-cent amounts, none equal to
`±0.01`, and whose sum is within the tolerance of zero, applying every
settlement instruction emitted by the optimizer (crediting the paying
`from` member and debiting the receiving `to` member by `amount`)
drives every member's balance to within the tolerance `0.01` of zero. -/
theorem settlements_complete_on_cent_balances (ms : List GroupMember)
    (hnd : (memberIds ms).Nodup)
    (hcent : ∀ m ∈ ms, isCent m.balance)
    (hntol : ∀ m ∈ ms, m.balance ≠ tol ∧ m.balance ≠ -tol)
    (hsum : |(ms.map (·.balance)).sum| ≤ tol) :
    ∀ m ∈ ms, |applyInstrs (settlements ms) (balMap ms) m.userId| ≤ tol := by
  have hz : ∀ m ∈ ms, -tol ≤ m.balance → m.balance ≤ tol → m.balance = 0 :=
    fun m hm hlo hhi =>
      isCent_in_band_eq_zero (hcent m hm) hlo hhi (hntol m hm).1 (hntol m hm).2
  obtain ⟨hdone, hinvc, hinvd, htot, happ⟩ :=
    settleLoop_spec ((creditorsOf ms).length + (debtorsOf ms).length)
      (creditorsOf ms) (debtorsOf ms) le_rfl
      (inv_creditorsOf hcent) (inv_debtorsOf hcent)
  have hbal : partNet (creditorsOf ms) (debtorsOf ms) = balMap ms :=
    funext (partNet_init hnd hz)
  have hS : totalR (creditorsOf ms) - totalR (debtorsOf ms)
      = (ms.map (·.balance)).sum := totals_init hz
  intro m hm
  rw [settlements, ← hbal, happ]
  rcases hdone with hF1 | hF2
  · rw [hF1] at htot ⊢
    rw [totalR_nil] at htot
    have htotF2 : totalR (settleLoop ((creditorsOf ms).length + (debtorsOf ms).length)
        (creditorsOf ms) (debtorsOf ms)).2.2 = -(ms.map (·.balance)).sum := by
      linarith [hS, htot]
    have hnn : ∀ p ∈ (settleLoop ((creditorsOf ms).length + (debtorsOf ms).length)
        (creditorsOf ms) (debtorsOf ms)).2.2, 0 ≤ p.remaining :=
      fun p hp => le_trans (le_of_lt tol_pos) (hinvd p hp).2
    have h1 := partSum_nonneg hnn m.userId
    have h2 := partSum_le_totalR hnn m.userId
    have h3 : -(ms.map (·.balance)).sum ≤ tol :=
      le_trans (neg_le_abs _) hsum
    simp only [partNet, partSum_nil, zero_sub, abs_neg]
    rw [abs_of_nonneg h1]
    linarith
  · rw [hF2] at htot ⊢
    rw [totalR_nil] at htot
    have htotF1 : totalR (settleLoop ((creditorsOf ms).length + (debtorsOf ms).length)
        (creditorsOf ms) (debtorsOf ms)).2.1 = (ms.map (·.balance)).sum := by
      linarith [hS, htot]
    have hnn : ∀ p ∈ (settleLoop ((creditorsOf ms).length + (debtorsOf ms).length)
        (creditorsOf ms) (debtorsOf ms)).2.1, 0 ≤ p.remaining :=
      fun p hp => le_trans (le_of_lt tol_pos) (hinvc p hp).2
    have h1 := partSum_nonneg hnn m.userId
    have h2 := partSum_le_totalR hnn m.userId
    have h3 : (ms.map (·.balance)).sum ≤ tol :=
      le_trans (le_abs_self _) hsum
    simp only [partNet, partSum_nil, sub_zero]
    rw [abs_of_nonneg h1]
    linarith

/-! ## Pointwise evaluation of the aggregator and incremental updates -/

lemma bmUpdate_apply (bal : String → ℚ) (y : String) (c : ℚ) (x : String) :
    bmUpdate bal y c x = bal x + (if x = y then c else 0) := by
  by_cases h : x = y <;> simp [bmUpdate, h]

lemma updateBalanceRpc_apply (ids : List String) (bal : String → ℚ) (u : String) (a : ℚ)
    (x : String) :
    updateBalanceRpc ids bal u a x = bal x + (if u ∈ ids ∧ x = u then a else 0) := by
  by_cases hu : u ∈ ids <;> by_cases hx : x = u <;>
    simp [updateBalanceRpc, bmUpdate, hu, hx]

/-- Pointwise value of the split-debit fold of `updateGroupBalances`. -/
lemma splitFold_apply (ids : List String) :
    ∀ (splits : List Split) (bal : String → ℚ) (x : String),
      (splits.foldl
        (fun b s => if s.userId ∈ ids then bmUpdate b s.userId (-s.amount) else b) bal) x
      = bal x
        - (splits.map (fun s => if s.userId ∈ ids ∧ x = s.userId then s.amount else 0)).sum := by
  intro splits
  induction splits with
  | nil => intro bal x; simp
  | cons s tl ih =>
    intro bal x
    rw [List.foldl_cons, ih, List.map_cons, List.sum_cons]
    by_cases hs : s.userId ∈ ids
    · rw [if_pos hs, bmUpdate_apply]
      by_cases hx : x = s.userId
      · rw [if_pos hx, if_pos ⟨hs, hx⟩]
        ring
      · rw [if_neg hx, if_neg (fun h => hx h.2)]
        ring
    · rw [if_neg hs, if_neg (fun h => hs h.1)]
      ring

/-- Pointwise value of one expense application by the aggregator. -/
lemma applyExpense_apply (ids : List String) (bal : String → ℚ) (e : Expense) (x : String) :
    applyExpense ids bal e x
      = bal x + (if e.paidBy ∈ ids ∧ x = e.paidBy then e.amount else 0)
        - (e.splits.map (fun s => if s.userId ∈ ids ∧ x = s.userId then s.amount else 0)).sum := by
  unfold applyExpense
  rw [splitFold_apply]
  by_cases hp : e.paidBy ∈ ids
  · rw [if_pos hp, bmUpdate_apply]
    by_cases hx : x = e.paidBy
    · rw [if_pos hx, if_pos ⟨hp, hx⟩]
    · rw [if_neg hx, if_neg (fun h => hx h.2)]
  · rw [if_neg hp, if_neg (fun h => hp h.1)]
    ring

lemma ite_neg_zero {C : Prop} [Decidable C] (a : ℚ) : (if C then -a else 0) = -(if C then a else 0) := by
  split <;> ring

/-- Pointwise value of the incremental per-split update of
`expensesService.create`. -/
lemma applyIncrementalExpense_apply (ids : List String) (paidBy : String) :
    ∀ (splits : List Split) (bal : String → ℚ) (x : String),
      applyIncrementalExpense ids bal paidBy splits x
      = bal x + (splits.map (fun s =>
          if s.userId = paidBy then 0
          else (if paidBy ∈ ids ∧ x = paidBy then s.amount else 0)
            - (if s.userId ∈ ids ∧ x = s.userId then s.amount else 0))).sum := by
  intro splits
  induction splits with
  | nil => intro bal x; simp [applyIncrementalExpense]
  | cons s tl ih =>
    intro bal x
    unfold applyIncrementalExpense at ih ⊢
    rw [List.foldl_cons, List.map_cons, List.sum_cons]
    by_cases hs : s.userId = paidBy
    · rw [if_pos hs, ih, if_pos hs]
      ring
    · rw [if_neg hs, ih, if_neg hs, updateBalanceRpc_apply, updateBalanceRpc_apply,
        ite_neg_zero]
      ring

/-- The per-split delta sum of the incremental update equals the
aggregator's per-expense delta, provided splits sum to the total. -/
lemma incDelta_eq_aggDelta (ids : List String) (paidBy : String) (x : String) :
    ∀ splits : List Split,
      (splits.map (fun s =>
          if s.userId = paidBy then 0
          else (if paidBy ∈ ids ∧ x = paidBy then s.amount else 0)
            - (if s.userId ∈ ids ∧ x = s.userId then s.amount else 0))).sum
      = (if paidBy ∈ ids ∧ x = paidBy then (splits.map (·.amount)).sum else 0)
        - (splits.map (fun s => if s.userId ∈ ids ∧ x = s.userId then s.amount else 0)).sum := by
  intro splits
  induction splits with
  | nil => simp
  | cons s tl ih =>
    simp only [List.map_cons, List.sum_cons]
    rw [ih]
    by_cases hs : s.userId = paidBy
    · rw [if_pos hs]
      have hcond : (s.userId ∈ ids ∧ x = s.userId) ↔ (paidBy ∈ ids ∧ x = paidBy) := by
        rw [hs]
      by_cases hC : paidBy ∈ ids ∧ x = paidBy
      · simp only [if_pos hC, if_pos (hcond.2 hC)]
        ring
      · simp only [if_neg hC, if_neg (fun h => hC (hcond.1 h))]
        ring
    · rw [if_neg hs]
      by_cases hC : paidBy ∈ ids ∧ x = paidBy
      · simp only [if_pos hC]
        ring
      · simp only [if_neg hC]
        ring

/-! ## Zero-sum lemmas for the aggregator -/

lemma sum_map_bmUpdate_not_mem (bal : String → ℚ) (y : String) (c : ℚ) :
    ∀ ids : List String, y ∉ ids →
      (ids.map (bmUpdate bal y c)).sum = (ids.map bal).sum := by
  intro ids
  induction ids with
  | nil => intro _; rfl
  | cons i tl ih =>
    intro hy
    have hiy : i ≠ y := fun h => hy (by simp [h])
    have hty : y ∉ tl := fun h => hy (by simp [h])
    simp only [List.map_cons, List.sum_cons, ih hty]
    rw [bmUpdate_apply, if_neg hiy]
    ring

lemma sum_map_bmUpdate (bal : String → ℚ) (y : String) (c : ℚ) :
    ∀ ids : List String, ids.Nodup → y ∈ ids →
      (ids.map (bmUpdate bal y c)).sum = (ids.map bal).sum + c := by
  intro ids
  induction ids with
  | nil => intro _ h; simp at h
  | cons i tl ih =>
    intro hnd hy
    have hnd' : tl.Nodup := (List.nodup_cons.1 hnd).2
    have hni : i ∉ tl := (List.nodup_cons.1 hnd).1
    simp only [List.map_cons, List.sum_cons]
    rcases List.mem_cons.1 hy with rfl | hmem
    · rw [sum_map_bmUpdate_not_mem bal y c tl hni, bmUpdate_apply, if_pos rfl]
      ring
    · have hiy : i ≠ y := fun h => hni (h ▸ hmem)
      rw [ih hnd' hmem, bmUpdate_apply, if_neg hiy]
      ring

/-- The split-debit fold lowers the member-wise total by the sum of the
split amounts, when every split member is a known member id. -/
lemma sum_splitFold (ids : List String) (hnd : ids.Nodup) :
    ∀ (splits : List Split) (bal : String → ℚ),
      (∀ s ∈ splits, s.userId ∈ ids) →
      (ids.map (splits.foldl
        (fun b s => if s.userId ∈ ids then bmUpdate b s.userId (-s.amount) else b) bal)).sum
      = (ids.map bal).sum - (splits.map (·.amount)).sum := by
  intro splits
  induction splits with
  | nil => intro bal _; simp
  | cons s tl ih =>
    intro bal hmem
    have hs : s.userId ∈ ids := hmem s (by simp)
    rw [List.foldl_cons, if_pos hs,
      ih (bmUpdate bal s.userId (-s.amount)) (fun q hq => hmem q (by simp [hq])),
      sum_map_bmUpdate bal s.userId (-s.amount) ids hnd hs,
      List.map_cons, List.sum_cons]
    ring

/-- One valid expense leaves the member-wise total unchanged. -/
lemma sum_applyExpense (ids : List String) (bal : String → ℚ) (e : Expense)
    (hnd : ids.Nodup) (hpb : e.paidBy ∈ ids)
    (hsp : ∀ s ∈ e.splits, s.userId ∈ ids)
    (hsum : (e.splits.map (·.amount)).sum = e.amount) :
    (ids.map (applyExpense ids bal e)).sum = (ids.map bal).sum := by
  unfold applyExpense
  rw [if_pos hpb, sum_splitFold ids hnd e.splits _ hsp,
    sum_map_bmUpdate bal e.paidBy e.amount ids hnd hpb, hsum]
  ring

/-- Folding valid expenses never changes the member-wise total. -/
lemma sum_expenseFold (ids : List String) (hnd : ids.Nodup) :
    ∀ (es : List Expense) (bal : String → ℚ),
      (∀ e ∈ es, e.paidBy ∈ ids ∧ (∀ s ∈ e.splits, s.userId ∈ ids)
        ∧ (e.splits.map (·.amount)).sum = e.amount) →
      (ids.map (es.foldl (applyExpense ids) bal)).sum = (ids.map bal).sum := by
  intro es
  induction es with
  | nil => intro bal _; rfl
  | cons e tl ih =>
    intro bal hval
    obtain ⟨hpb, hsp, hsum⟩ := hval e (by simp)
    rw [List.foldl_cons, ih (applyExpense ids bal e) (fun q hq => hval q (by simp [hq])),
      sum_applyExpense ids bal e hnd hpb hsp hsum]

lemma recomputeMembers_balances (ms : List GroupMember) (es : List Expense) :
    (recomputeMembers ms es).map (·.balance)
      = (memberIds ms).map (updateGroupBalances ms es) := by
  simp [recomputeMembers, memberIds, List.map_map]

/-- The aggregator never touches ids outside the member set. -/
lemma applyExpense_not_mem (ids : List String) (bal : String → ℚ) (e : Expense)
    {x : String} (hx : x ∉ ids) : applyExpense ids bal e x = bal x := by
  have hp : ¬ (e.paidBy ∈ ids ∧ x = e.paidBy) := fun h => hx (h.2 ▸ h.1)
  rw [applyExpense_apply, if_neg hp]
  have hz : ∀ q ∈ e.splits.map
      (fun s => if s.userId ∈ ids ∧ x = s.userId then s.amount else 0), q = 0 := by
    intro q hq
    obtain ⟨s, _, rfl⟩ := List.mem_map.1 hq
    have hs : ¬ (s.userId ∈ ids ∧ x = s.userId) := fun h => hx (h.2 ▸ h.1)
    rw [if_neg hs]
  rw [List.sum_eq_zero hz]
  ring

lemma expenseFold_not_mem (ids : List String) {x : String} (hx : x ∉ ids) :
    ∀ (es : List Expense) (bal : String → ℚ),
      (es.foldl (applyExpense ids) bal) x = bal x := by
  intro es
  induction es with
  | nil => intro bal; rfl
  | cons e tl ih =>
    intro bal
    rw [List.foldl_cons, ih, applyExpense_not_mem ids bal e hx]

lemma sum_splitContrib_filter (ids : List String) (x : String) :
    ∀ l : List Split,
      ((l.filter (fun s => s.userId ∈ ids)).map
        (fun s => if s.userId ∈ ids ∧ x = s.userId then s.amount else 0)).sum
      = (l.map (fun s => if s.userId ∈ ids ∧ x = s.userId then s.amount else 0)).sum := by
  intro l
  induction l with
  | nil => rfl
  | cons s tl ih =>
    by_cases hs : s.userId ∈ ids <;>
      simp [List.filter_cons, hs, ih]

lemma applyExpense_filter_splits (ids : List String) (bal : String → ℚ) (e : Expense) :
    applyExpense ids bal
        { e with splits := e.splits.filter (fun s => s.userId ∈ ids) }
      = applyExpense ids bal e := by
  funext x
  rw [applyExpense_apply, applyExpense_apply]
  simp only
  rw [sum_splitContrib_filter]

/-- Dropping splits that reference unknown members does not change the
recomputed balances: the aggregator skips them silently. -/
lemma updateGroupBalances_filter (ms : List GroupMember) (es : List Expense) :
    updateGroupBalances ms (es.map (fun e =>
        { e with splits := e.splits.filter (fun s => s.userId ∈ memberIds ms) }))
      = updateGroupBalances ms es := by
  unfold updateGroupBalances
  rw [List.foldl_map]
  exact List.foldl_ext _ _ _
    (fun b e he => applyExpense_filter_splits (memberIds ms) b e)

/-- C2.  For groups with pairwise-distinct member ids and valid input
expenses (payer known, every split member known, splits summing to the
expense total), the balances produced by the aggregator sum to zero
(exactly, hence within any epsilon). -/
theorem recompute_zero_sum (ms : List GroupMember) (es : List Expense)
    (hnd : (memberIds ms).Nodup)
    (hval : ∀ e ∈ es, e.paidBy ∈ memberIds ms ∧ (∀ s ∈ e.splits, s.userId ∈ memberIds ms)
      ∧ (e.splits.map (·.amount)).sum = e.amount) :
    ((recomputeMembers ms es).map (·.balance)).sum = 0 := by
  rw [recomputeMembers_balances, updateGroupBalances,
    sum_expenseFold (memberIds ms) hnd es _ hval]
  simp

/-- C2 witness: a two-member group with one valid 10-unit expense split
5/5 has balances summing to zero. -/
theorem recompute_zero_sum_witness :
    ((recomputeMembers [⟨"a", "A", 0⟩, ⟨"b", "B", 0⟩]
      [⟨10, "a", [⟨"a", 5, true⟩, ⟨"b", 5, false⟩]⟩]).map (·.balance)).sum = 0 :=
  recompute_zero_sum [⟨"a", "A", 0⟩, ⟨"b", "B", 0⟩]
    [⟨10, "a", [⟨"a", 5, true⟩, ⟨"b", 5, false⟩]⟩]
    (by simp [memberIds])
    (by
      intro e he
      simp only [List.mem_singleton] at he
      subst he
      refine ⟨by simp [memberIds], by intro s hs; fin_cases hs <;> simp [memberIds], ?_⟩
      norm_num)

/-- C10.  For an expense whose splits sum to its total, with known payer
and split members and distinct member ids, the incremental balance
update performed on expense creation equals the aggregator's
recomputation delta as a function, and it preserves the member-wise
balance total (so the zero-sum invariant survives the mutation). -/
theorem incremental_update_matches_aggregator (ids : List String) (bal : String → ℚ)
    (e : Expense) (hnd : ids.Nodup) (hpb : e.paidBy ∈ ids)
    (hsp : ∀ s ∈ e.splits, s.userId ∈ ids)
    (hsum : (e.splits.map (·.amount)).sum = e.amount) :
    applyIncrementalExpense ids bal e.paidBy e.splits = applyExpense ids bal e ∧
    (ids.map (applyIncrementalExpense ids bal e.paidBy e.splits)).sum
      = (ids.map bal).sum := by
  have heq : applyIncrementalExpense ids bal e.paidBy e.splits = applyExpense ids bal e := by
    funext x
    rw [applyIncrementalExpense_apply, applyExpense_apply,
      incDelta_eq_aggDelta ids e.paidBy x e.splits, hsum]
    ring
  refine ⟨heq, ?_⟩
  rw [heq]
  exact sum_applyExpense ids bal e hnd hpb hsp hsum

/-- C10 witness: the incremental update and the aggregator agree on a
concrete 10-unit expense split 5/5 between two members. -/
theorem incremental_update_matches_aggregator_witness :
    applyIncrementalExpense ["a", "b"] (fun _ => 0) "a" [⟨"a", 5, true⟩, ⟨"b", 5, false⟩]
        = applyExpense ["a", "b"] (fun _ => 0) ⟨10, "a", [⟨"a", 5, true⟩, ⟨"b", 5, false⟩]⟩ ∧
      (["a", "b"].map (applyIncrementalExpense ["a", "b"] (fun _ => 0) "a"
        [⟨"a", 5, true⟩, ⟨"b", 5, false⟩])).sum = (["a", "b"].map (fun _ => (0 : ℚ))).sum :=
  incremental_update_matches_aggregator ["a", "b"] (fun _ => 0)
    ⟨10, "a", [⟨"a", 5, true⟩, ⟨"b", 5, false⟩]⟩
    (by simp) (by simp) (by intro s hs; fin_cases hs <;> simp) (by norm_num)

/-- C5 (amended).  The aggregator never rejects anything: a balance is
produced for exactly the group's member ids (an unknown id maps to the
default 0 and no entry is created for it), and splits referencing
unknown member ids are silently skipped — dropping them from the input
does not change the result.  Negative amounts pass through the same
arithmetic as any other amount (see the counterexample theorem). -/
theorem aggregator_never_rejects :
    (∀ (ms : List GroupMember) (es : List Expense) (x : String),
      x ∉ memberIds ms → updateGroupBalances ms es x = 0) ∧
    (∀ (ms : List GroupMember) (es : List Expense),
      (recomputeMembers ms es).map (·.userId) = memberIds ms) ∧
    (∀ (ms : List GroupMember) (es : List Expense),
      updateGroupBalances ms (es.map (fun e =>
          { e with splits := e.splits.filter (fun s => s.userId ∈ memberIds ms) }))
        = updateGroupBalances ms es) := by
  refine ⟨?_, ?_, ?_⟩
  · intro ms es x hx
    exact expenseFold_not_mem (memberIds ms) hx es (fun _ => 0)
  · intro ms es
    simp [recomputeMembers, memberIds, List.map_map]
  · intro ms es
    exact updateGroupBalances_filter ms es

/-- C5 witness: the split referencing the unknown id `x` leaves no
balance entry behind — the aggregator maps `x` to the default 0. -/
theorem aggregator_never_rejects_witness :
    updateGroupBalances [⟨"a", "A", 0⟩, ⟨"b", "B", 0⟩]
      [⟨10, "a", [⟨"b", 4, false⟩, ⟨"x", 6, false⟩]⟩] "x" = 0 :=
  aggregator_never_rejects.1 [⟨"a", "A", 0⟩, ⟨"b", "B", 0⟩]
    [⟨10, "a", [⟨"b", 4, false⟩, ⟨"x", 6, false⟩]⟩] "x" (by simp [memberIds])

/-- C5 counterexample.  An expense with a negative split amount and a
split referencing the unknown member `x` is processed without any
error: the amounts are absorbed into the two known members' balances
(the negative split *credits* `b` with 4) and the unknown reference is
silently dropped.  The aggregator has no error/rejection path at all,
contradicting the claim that such input fails with an explicit error. -/
theorem aggregator_accepts_malformed_input :
    recomputeMembers [⟨"a", "A", 0⟩, ⟨"b", "B", 0⟩]
        [⟨10, "a", [⟨"b", -4, false⟩, ⟨"x", 6, false⟩]⟩]
      = [⟨"a", "A", 10⟩, ⟨"b", "B", 4⟩] := by
  norm_num +decide [recomputeMembers, updateGroupBalances, applyExpense, bmUpdate, memberIds]

/-- The demo-mode state of the C4 analysis: two members, one 100-unit
expense paid by `a` and split 50/50, no payments yet. -/
def exState : DemoState :=
  ⟨[⟨"a", "A", 0⟩, ⟨"b", "B", 0⟩],
    [⟨100, "a", [⟨"a", 50, true⟩, ⟨"b", 50, false⟩]⟩], []⟩

/-- A settlement payment of 25 from `b` to `a`. -/
def exPayment : Payment := ⟨"b", "a", 25⟩

/-- C4 (code bug).  The demo aggregator `updateGroupBalances` reads only
the group's expenses, never its payments, and `addPayment` stores the
payment without touching balances; so recording a payment leaves every
recomputed balance unchanged — the payer `b` is not credited the
payment amount as the spec requires. -/
theorem payments_ignored_by_demo_recompute :
    (∀ (st : DemoState) (p : Payment),
      demoRecompute (demoAddPayment st p) = demoRecompute st) ∧
    demoRecompute (demoAddPayment exState exPayment)
      = [⟨"a", "A", 50⟩, ⟨"b", "B", -50⟩] ∧
    balMap (demoRecompute (demoAddPayment exState exPayment)) "b"
      ≠ balMap (demoRecompute exState) "b" + exPayment.amount := by
  refine ⟨fun st p => rfl, ?_, ?_⟩
  · norm_num +decide [demoRecompute, demoAddPayment, exState, exPayment, recomputeMembers,
      updateGroupBalances, applyExpense, bmUpdate, memberIds]
  · norm_num +decide [demoRecompute, demoAddPayment, exState, exPayment, recomputeMembers,
      updateGroupBalances, applyExpense, bmUpdate, memberIds, balMap, List.find?]

lemma settleLoop_nil_left (fuel : ℕ) (ds : List Party) :
    settleLoop fuel [] ds = ([], [], ds) := by
  cases fuel with
  | zero => rfl
  | succ n => exact settleLoop_succ_left_nil n ds

lemma settleLoop_nil_right (fuel : ℕ) (cs : List Party) :
    settleLoop fuel cs [] = ([], cs, []) := by
  cases fuel with
  | zero => rfl
  | succ n => exact settleLoop_succ_right_nil n cs

/-- C6 (amended).  When one partition is exhausted the optimizer's loop
simply stops and returns the instruction list accumulated so far,
leaving the other partition — with whatever remaining amount it still
holds — untouched and unreported: its return type has no error case,
so a leftover imbalance is silently truncated (see the counterexample
theorem for a concrete truncated run). -/
theorem optimizer_silently_stops (fuel : ℕ) (cs ds : List Party)
    (h : cs = [] ∨ ds = []) : settleLoop fuel cs ds = ([], cs, ds) := by
  rcases h with rfl | rfl
  · exact settleLoop_nil_left fuel ds
  · exact settleLoop_nil_right fuel cs

/-- C6 witness: a creditor partition still holding 5 units is returned
unchanged, with no instructions and no error, once debtors are gone. -/
theorem optimizer_silently_stops_witness :
    settleLoop 3 [⟨"a", "A", 5⟩] [] = ([], [⟨"a", "A", 5⟩], []) :=
  optimizer_silently_stops 3 [⟨"a", "A", 5⟩] [] (Or.inr rfl)

/-- C6 counterexample.  On balances `{a: +5, b: -1}` — which do not sum
to zero — the optimizer returns the ordinary truncated instruction list
`[b → a, 1]` and stops; member `a` is left 4 away from settled and no
error of any kind is surfaced, contradicting the claim that this
situation produces an explicit error. -/
theorem optimizer_no_error_on_unbalanced :
    settlements [⟨"a", "A", 5⟩, ⟨"b", "B", -1⟩] = [⟨"b", "a", 1, "B", "A"⟩] ∧
    applyInstrs (settlements [⟨"a", "A", 5⟩, ⟨"b", "B", -1⟩])
      (balMap [⟨"a", "A", 5⟩, ⟨"b", "B", -1⟩]) "a" = 4 := by
  constructor <;>
    norm_num +decide [settlements, settleLoop, sortDesc, creditorsOf, debtorsOf, tol,
      jsRound2, List.insertionSort, List.orderedInsert, applyInstrs, applyInstr, balMap,
      min_def, List.find?, List.filter]

/-- C7 (amended).  The optimizer's output is empty iff at least one of
the two partitions is empty — i.e. iff there is no member with balance
above `0.01` or no member with balance below `-0.01`.  In particular it
is empty whenever all balances are within tolerance, but it is also
empty on unbalanced inputs where only one side of the ledger exists. -/
theorem settlements_empty_iff (ms : List GroupMember) :
    settlements ms = [] ↔ creditorsOf ms = [] ∨ debtorsOf ms = [] := by
  constructor
  · intro h
    by_contra hne
    push_neg at hne
    obtain ⟨hcne, hdne⟩ := hne
    rcases h1 : sortDesc (creditorsOf ms) with _ | ⟨c, ctl⟩
    · exact hcne (sortDesc_eq_nil_iff.1 h1)
    rcases h2 : sortDesc (debtorsOf ms) with _ | ⟨d, dtl⟩
    · exact hdne (sortDesc_eq_nil_iff.1 h2)
    have hlc : ctl.length + 1 = (creditorsOf ms).length := by
      have := length_sortDesc (creditorsOf ms)
      rw [h1] at this
      simpa using this
    have hld : dtl.length + 1 = (debtorsOf ms).length := by
      have := length_sortDesc (debtorsOf ms)
      rw [h2] at this
      simpa using this
    have hfuel : (creditorsOf ms).length + (debtorsOf ms).length
        = (ctl.length + dtl.length + 1) + 1 := by omega
    simp only [settlements] at h
    rw [hfuel, settleLoop_succ_cons (ctl.length + dtl.length + 1) h1 h2] at h
    simp at h
  · intro h
    rcases h with h | h
    · simp [settlements, h, settleLoop_nil_left]
    · simp [settlements, h, settleLoop_nil_right]

/-- C7 counterexample.  A lone creditor with balance 5 — far outside
the tolerance — still yields an empty settlement list (there is no
debtor to match), so "output empty iff all balances within tolerance"
fails in the right-to-left reading at this input. -/
theorem settlements_empty_iff_counterexample :
    ¬ ((settlements [⟨"a", "A", 5⟩] = [])
      ↔ ∀ m ∈ [(⟨"a", "A", 5⟩ : GroupMember)], |m.balance| ≤ tol) := by
  intro h
  have h1 : settlements [⟨"a", "A", 5⟩] = [] := by
    norm_num +decide [settlements, settleLoop, creditorsOf, debtorsOf, tol, List.filter,
      sortDesc, List.insertionSort, List.orderedInsert]
  have h2 := h.1 h1 ⟨"a", "A", 5⟩ (by simp)
  norm_num [tol] at h2

/-- C8 (amended).  After decrementing, the optimizer removes a head
party from its partition exactly when its remaining amount fell
*strictly* below the tolerance (`remaining < 0.01`); a party whose
remaining amount equals the tolerance exactly is *retained*. -/
theorem settleStep_removes_only_strictly_below (cs ds : List Party) (c d : Party)
    (ctl dtl : List Party) (hc : sortDesc cs = c :: ctl) (hd : sortDesc ds = d :: dtl) :
    (tol ≤ c.remaining - min c.remaining d.remaining →
      (settleLoop 1 cs ds).2.1
        = { c with remaining := c.remaining - min c.remaining d.remaining } :: ctl) ∧
    (c.remaining - min c.remaining d.remaining < tol →
      (settleLoop 1 cs ds).2.1 = ctl) ∧
    (tol ≤ d.remaining - min c.remaining d.remaining →
      (settleLoop 1 cs ds).2.2
        = { d with remaining := d.remaining - min c.remaining d.remaining } :: dtl) ∧
    (d.remaining - min c.remaining d.remaining < tol →
      (settleLoop 1 cs ds).2.2 = dtl) := by
  rw [settleLoop_succ_cons 0 hc hd]
  refine ⟨fun h => ?_, fun h => ?_, fun h => ?_, fun h => ?_⟩
  · show stepList c (min c.remaining d.remaining) ctl = _
    unfold stepList
    rw [if_neg (not_lt.2 h)]
  · show stepList c (min c.remaining d.remaining) ctl = _
    unfold stepList
    rw [if_pos h]
  · show stepList d (min c.remaining d.remaining) dtl = _
    unfold stepList
    rw [if_neg (not_lt.2 h)]
  · show stepList d (min c.remaining d.remaining) dtl = _
    unfold stepList
    rw [if_pos h]

/-- C8 witness: a creditor starting at 1.01 who settles 1.00 is left at
exactly the tolerance 0.01 and is retained in the creditor partition. -/
theorem settleStep_removes_only_strictly_below_witness :
    (settleLoop 1 [⟨"a", "A", 101/100⟩] [⟨"b", "B", (1 : ℚ)⟩]).2.1
      = [⟨"a", "A", (101/100 : ℚ) - min (101/100) 1⟩] :=
  (settleStep_removes_only_strictly_below [⟨"a", "A", 101/100⟩] [⟨"b", "B", (1 : ℚ)⟩]
    ⟨"a", "A", 101/100⟩ ⟨"b", "B", (1 : ℚ)⟩ [] [] rfl rfl).1
    (by norm_num [tol, min_def])

/-- C8 counterexample.  With creditor `a` at 1.01 and debtor `b` at
1.00 remaining, the iteration settles 1.00 and leaves `a` at exactly
0.01 = tolerance; the source's `remaining < 0.01` check does *not*
remove `a`, contradicting the claim that a party at exactly the
tolerance is removed. -/
theorem settleStep_keeps_party_at_exact_tolerance :
    (settleLoop 1 [⟨"a", "A", 101/100⟩] [⟨"b", "B", 1⟩]).2.1 = [⟨"a", "A", 1/100⟩] ∧
    (1/100 : ℚ) = tol := by
  constructor
  · norm_num +decide [settleLoop, sortDesc, tol, jsRound2, List.insertionSort,
      List.orderedInsert, min_def]
  · norm_num [tol]

/-- C9.  The spec's concrete scenario: members A, B, C (in order) with
a single 1200-unit expense paid by A split 400/400/400.  The aggregator
yields A = +800 (the payer, also in their own split, nets the other
members' shares), B = C = −400; the optimizer on those balances emits
exactly `[{B → A, 400}, {C → A, 400}]` in that order. -/
theorem scenario_equal_split_three_members :
    recomputeMembers [⟨"a", "A", 0⟩, ⟨"b", "B", 0⟩, ⟨"c", "C", 0⟩]
        [⟨1200, "a", [⟨"a", 400, true⟩, ⟨"b", 400, false⟩, ⟨"c", 400, false⟩]⟩]
      = [⟨"a", "A", 800⟩, ⟨"b", "B", -400⟩, ⟨"c", "C", -400⟩] ∧
    settlements [⟨"a", "A", 800⟩, ⟨"b", "B", -400⟩, ⟨"c", "C", -400⟩]
      = [⟨"b", "a", 400, "B", "A"⟩, ⟨"c", "a", 400, "C", "A"⟩] := by
  constructor
  · norm_num +decide [recomputeMembers, updateGroupBalances, applyExpense, bmUpdate,
      memberIds]
  · norm_num +decide [settlements, settleLoop, sortDesc, creditorsOf, debtorsOf, tol,
      jsRound2, List.insertionSort, List.orderedInsert, min_def, List.filter]

/-- C3.  The optimizer always terminates — any fuel at least the total
party count yields the very result `settlements` computes — and emits
at most `N - 1` instructions, where `N` is the number of members whose
balance lies outside the tolerance band (`ℕ`-subtraction: for `N = 0`
the bound reads 0). -/
theorem settlements_bounded_count (ms : List GroupMember) :
    (settlements ms).length
        ≤ (ms.filter (fun m => tol < m.balance ∨ m.balance < -tol)).length - 1 ∧
      ∀ fuel : ℕ, (creditorsOf ms).length + (debtorsOf ms).length ≤ fuel →
        (settleLoop fuel (creditorsOf ms) (debtorsOf ms)).1 = settlements ms := by
  constructor
  · have h := settleLoop_length ((creditorsOf ms).length + (debtorsOf ms).length)
      (creditorsOf ms) (debtorsOf ms)
    rw [← partition_count]
    exact h
  · intro fuel hf
    rw [settleLoop_fuel_ge fuel _ _ hf]
    rfl

/-- C3 witness: a two-member group `{a: +5, b: -5}` (N = 2) where any
fuel of at least 2 reproduces the `settlements` result of at most one
instruction. -/
theorem settlements_bounded_count_witness :
    ((settlements [⟨"a", "A", 5⟩, ⟨"b", "B", -5⟩]).length
        ≤ ([(⟨"a", "A", 5⟩ : GroupMember), ⟨"b", "B", -5⟩].filter
            (fun m => tol < m.balance ∨ m.balance < -tol)).length - 1) ∧
      (settleLoop 2 (creditorsOf [⟨"a", "A", 5⟩, ⟨"b", "B", -5⟩])
          (debtorsOf [⟨"a", "A", 5⟩, ⟨"b", "B", -5⟩])).1
        = settlements [⟨"a", "A", 5⟩, ⟨"b", "B", -5⟩] :=
  ⟨(settlements_bounded_count [⟨"a", "A", 5⟩, ⟨"b", "B", -5⟩]).1,
    (settlements_bounded_count [⟨"a", "A", 5⟩, ⟨"b", "B", -5⟩]).2 2
      (by norm_num +decide [creditorsOf, debtorsOf, tol, List.filter])⟩

/-- C1 counterexample.  Balances `{a: +0.02, b: -0.01, c: -0.01}` sum
to exactly zero, yet the optimizer emits no instruction (`b` and `c`
sit inside the open tolerance band, so there is no debtor) and `a` is
left at 0.02, outside the tolerance: the claim fails as stated. -/
theorem settlements_incomplete_counterexample :
    ([(⟨"a", "A", 2/100⟩ : GroupMember), ⟨"b", "B", -1/100⟩, ⟨"c", "C", -1/100⟩].map
        (·.balance)).sum = 0 ∧
    settlements [⟨"a", "A", 2/100⟩, ⟨"b", "B", -1/100⟩, ⟨"c", "C", -1/100⟩] = [] ∧
    ¬ |applyInstrs
        (settlements [⟨"a", "A", 2/100⟩, ⟨"b", "B", -1/100⟩, ⟨"c", "C", -1/100⟩])
        (balMap [⟨"a", "A", 2/100⟩, ⟨"b", "B", -1/100⟩, ⟨"c", "C", -1/100⟩]) "a"| ≤ tol := by
  refine ⟨by norm_num, ?_, ?_⟩
  · norm_num +decide [settlements, settleLoop, creditorsOf, debtorsOf, tol, List.filter,
      sortDesc, List.insertionSort, List.orderedInsert]
  · norm_num +decide [settlements, settleLoop, creditorsOf, debtorsOf, tol, List.filter,
      sortDesc, List.insertionSort, List.orderedInsert, applyInstrs, applyInstr, balMap,
      List.find?]
    rw [abs_of_pos (by norm_num : (0 : ℚ) < 1/50)]
    norm_num

/-- C1 witness: the spec's scenario balances `{a: +800, b: -400,
c: -400}` satisfy all hypotheses, and applying the emitted settlement
instructions leaves member `a` within tolerance of zero. -/
theorem settlements_complete_on_cent_balances_witness :
    |applyInstrs (settlements [⟨"a", "A", 800⟩, ⟨"b", "B", -400⟩, ⟨"c", "C", -400⟩])
      (balMap [⟨"a", "A", 800⟩, ⟨"b", "B", -400⟩, ⟨"c", "C", -400⟩]) "a"| ≤ tol :=
  settlements_complete_on_cent_balances
    [⟨"a", "A", 800⟩, ⟨"b", "B", -400⟩, ⟨"c", "C", -400⟩]
    (by simp [memberIds])
    (by
      intro m hm
      fin_cases hm
      · exact isCent_iff.2 ⟨80000, by norm_num⟩
      · exact isCent_iff.2 ⟨-40000, by norm_num⟩
      · exact isCent_iff.2 ⟨-40000, by norm_num⟩)
    (by intro m hm; fin_cases hm <;> constructor <;> norm_num [tol])
    (by norm_num [tol])
    ⟨"a", "A", 800⟩ (by simp)
